import Mathlib

/-!
Shallow embedding of `covid19_datasets/uk_area_stats.py` and proofs about it.

Modelling conventions:
- A pandas DataFrame whose rows are keyed by a (Country, Area name) MultiIndex
  and whose columns are dates is modelled by `DFrame`: an explicit column list
  of dates (days encoded as natural numbers, e.g. days since an epoch) and a
  list of rows, each a key paired with one cell per column.
- A cell is `Option ℚ`: `none` models NaN (missing), `some q` a float value.
- `pivot_table` row/column label sorting is not modelled for row keys (rows are
  kept in first-appearance order); no claim below depends on row order, and the
  column order of the England/Wales pipeline is canonicalized by the final
  column sort inside `backfill_missing_data` in any case.
- Parsing of date strings (`pd.to_datetime`) is external I/O and is modelled by
  taking dates to be already-parsed day numbers.  The column label constant
  `DATE_COLUMN_NAME` (imported from `constants.py`) is only a label and plays
  no role in any claim.
-/

namespace UKAreaStats

abbrev Date := Nat

/-- A cell of a data frame: `none` models NaN / missing, `some q` a float. -/
abbrev Cell := Option ℚ

/-- Row key of the national matrices: (Country, Area name). -/
abbrev RowKey := String × String

/-- A pandas DataFrame with date columns and (Country, Area) keyed rows. -/
@[ext]
structure DFrame where
  cols : List Date
  rows : List (RowKey × List Cell)
deriving DecidableEq

/-- `fillna(0.0)` on one cell: NaN becomes 0.0, anything else is kept. -/
def fillCell (c : Cell) : Cell := some (c.getD 0)

/-- `df.columns.min()` on a (nonempty) date index; 0 on the empty index,
which pandas would reject. -/
def minD : List Date → Date
  | [] => 0
  | d :: ds => ds.foldl min d

/-- `df.columns.max()`, analogously. -/
def maxD : List Date → Date
  | [] => 0
  | d :: ds => ds.foldl max d

/-- `pd.date_range(lo, hi, freq='D')`: all days from `lo` to `hi` inclusive. -/
def allDays (lo hi : Date) : List Date := List.range' lo (hi + 1 - lo)

/-- The cell of a row (given the frame's column list `cols` and the row's
cells) at date column `d`: the first column labelled `d`, or NaN when no such
column exists. -/
def cellAt (cols : List Date) (cells : List Cell) (d : Date) : Cell :=
  ((cols.zip cells).lookup d).getD none

/-- `missing_days = np.setdiff1d(all_days, df.columns)` (line 26): the days of
the full range that are not columns yet. -/
def missingDays (df : DFrame) : List Date :=
  (allDays (minD df.cols) (maxD df.cols)).filter fun d => d ∉ df.cols

/-- Embedding of `_backfill_missing_data` (uk_area_stats.py lines 15-32):
replace NaNs by 0.0, append a zero column for every calendar day between the
minimum and maximum column dates that is absent, then reorder the columns
ascending by date (`df[np.sort(df.columns)]`). -/
def backfill_missing_data (df : DFrame) : DFrame :=
  let cols2 := df.cols ++ missingDays df
  let sorted := List.insertionSort (fun a b => a ≤ b) cols2
  { cols := sorted,
    rows := df.rows.map fun r =>
      (r.1, sorted.map fun d =>
        cellAt cols2 (r.2.map fillCell ++ (missingDays df).map fun _ => some 0) d) }

/-- A frame is date-complete when every calendar day between its minimum and
maximum column dates appears among its columns. -/
def dateComplete (df : DFrame) : Prop :=
  ∀ d : Date, minD df.cols ≤ d → d ≤ maxD df.cols → d ∈ df.cols

/-! ### Scotland reshaper -/

/-- One step of the in-place cumulative-to-daily loop:
`df.iloc[:, i] = df.iloc[:, i] - df.iloc[:, i-1]`, restricted to one row. -/
def deltaStep (acc : List ℚ) (i : Nat) : List ℚ :=
  acc.set i (acc.getD i 0 - acc.getD (i - 1) 0)

/-- Embedding of the loop `for i in range(len(df.columns) - 1, 1, -1)`
(uk_area_stats.py lines 73-74), acting on one row of cumulative values.
`range(n-1, 1, -1)` enumerates `n-1, n-2, ..., 2`, i.e. the reverse of
`List.range' 2 (n-2)`. -/
def deltaLoop (vs : List ℚ) : List ℚ :=
  (List.range' 2 (vs.length - 2)).reverse.foldl deltaStep vs

/-- The raw Scotland table as it stands right after the transpose and header
promotion (lines 62-68): the promoted header is the list of (parsed) dates and
each remaining row is an area name with one cumulative value per date.
A cell is `none` for the suppressed-value placeholder `'*'`, `some q`
otherwise. -/
structure ScotRaw where
  dates : List Date
  areas : List (String × List (Option ℚ))
deriving DecidableEq

/-- Embedding of `_load_scotland_cases_dataset` (lines 56-80), starting from
the fetched-and-transposed table: replace `'*'` by 0.0 and coerce to float,
run the cumulative-to-daily loop per row, and key rows by
(Country="Scotland", Area name).  Note: the result is NOT passed through
`_backfill_missing_data`. -/
def load_scotland_cases_dataset (raw : ScotRaw) : DFrame :=
  { cols := raw.dates,
    rows := raw.areas.map fun r =>
      (("Scotland", r.1), (deltaLoop (r.2.map fun c => c.getD 0)).map some) }

/-! ### England/Wales reshaper -/

/-- One row of the raw CSV fetched from the England/Wales cases endpoint,
restricted to the fields the code reads. -/
structure EWRow where
  areaCode : String
  areaName : String
  date : Date
  newCases : ℚ
deriving DecidableEq

/-- First-appearance deduplication (the distinct row/column labels that
`pivot_table` produces), with an accumulator of labels already seen. -/
def uniqueAux [DecidableEq α] (seen : List α) : List α → List α
  | [] => []
  | x :: xs => if x ∈ seen then uniqueAux seen xs else x :: uniqueAux (x :: seen) xs

/-- The distinct elements of a list, keeping first occurrences in order. -/
def uniqueList [DecidableEq α] (l : List α) : List α := uniqueAux [] l

/-- `pivot_table`'s default `aggfunc='mean'` over the values found for one
(row key, column) pair; NaN when there is no such value. -/
def pivotCell (vals : List ℚ) : Cell :=
  if vals = [] then none else some (vals.sum / vals.length)

/-- Embedding of `_load_cases_dataset` (lines 35-53), starting from the
fetched raw table: keep the rows whose area code starts with the first letter
of the country, pivot to one row per (Country, Area name) and one column per
distinct date with the daily new-case count as value, then backfill.
(`area_type` only selects which URL variant is fetched; the fetched table is
passed in as `raw`.) -/
def load_cases_dataset (country : String) (raw : List EWRow) : DFrame :=
  let filtered := raw.filter fun r => r.areaCode.data.take 1 = country.data.take 1
  let keys := uniqueList (filtered.map fun r => (country, r.areaName))
  let dates := uniqueList (filtered.map fun r => r.date)
  let pivoted : DFrame :=
    { cols := dates,
      rows := keys.map fun k =>
        (k, dates.map fun d =>
          pivotCell ((filtered.filter fun r =>
            (country, r.areaName) = k ∧ r.date = d).map fun r => r.newCases)) }
  backfill_missing_data pivoted

/-! ### Combined read -/

/-- Re-align the rows of one national frame (columns `fcols`) to the union
column list `ucols` of the concatenated frame; cells of columns the nation
does not have become NaN, and the trailing `fillna(0.0)` of `get_cases_data`
then turns every NaN into 0.0. -/
def alignRows (ucols fcols : List Date) (rows : List (RowKey × List Cell)) :
    List (RowKey × List Cell) :=
  rows.map fun r => (r.1, ucols.map fun d => fillCell (cellAt fcols r.2 d))

/-- Embedding of `UKCovid19Data.get_cases_data` (lines 112-127):
`pd.concat` of the three cached national frames (outer join on columns, which
keeps columns in first-appearance order) followed by `fillna(0.0)`. -/
def get_cases_data (e w s : DFrame) : DFrame :=
  let ucols := uniqueList (e.cols ++ w.cols ++ s.cols)
  { cols := ucols,
    rows := alignRows ucols e.cols e.rows ++ alignRows ucols w.cols w.rows ++
      alignRows ucols s.cols s.rows }

/-! ### The provider's class-level cache and constructor -/

/-- The class-level attributes of `UKCovid19Data`.  `englandAreaType` is
`none` as long as the attribute `england_area_type` has never been assigned
(the class body declares no default for it); `walesTests` models
`wales_tests_data`, which the class body declares as `None` and which no
code ever assigns. -/
structure CacheState where
  england : Option DFrame
  wales : Option DFrame
  walesTests : Option DFrame
  scotland : Option DFrame
  englandAreaType : Option String
deriving DecidableEq

/-- The state of the class attributes at process start. -/
def initialCache : CacheState :=
  { england := none, wales := none, walesTests := none, scotland := none,
    englandAreaType := none }

/-- One dataset download: each call of `_load_cases_dataset` issues its own
HTTP fetch of the England/Wales endpoint (parameterized by area type), and
`_load_scotland_cases_dataset` fetches the Scotland endpoint. -/
inductive Fetch where
  | england (areaType : String)
  | wales (areaType : String)
  | scotland
deriving DecidableEq

/-- The remote endpoints, as an oracle: the raw England/Wales table served
for a given area type, and the raw Scotland table. -/
structure Oracle where
  ewRaw : String → List EWRow
  scotRaw : ScotRaw

/-- Left-to-right short-circuit evaluation of the condition on line 102,
`england_cases_data is None or force_load or england_area_type != england_area_type`.
Reading the class attribute `england_area_type` before any assignment raises
`AttributeError`, modelled by `Except.error`. -/
def evalEnglandCond (s : CacheState) (force : Bool) (t : String) :
    Except Unit Bool :=
  if s.england.isNone then .ok true
  else if force then .ok true
  else match s.englandAreaType with
    | none => .error ()
    | some t0 => .ok (decide (t0 ≠ t))

/-- Embedding of `UKCovid19Data.__init__` (lines 95-110): the three guarded
(re)loads, in order, together with the list of fetches they issue.  A raised
`AttributeError` (from the England condition) aborts the constructor. -/
def init_UKCovid19Data (o : Oracle) (s : CacheState) (force : Bool)
    (t : String) : Except Unit (CacheState × List Fetch) :=
  match evalEnglandCond s force t with
  | .error e => .error e
  | .ok c1 =>
    let s1 := if c1 then
        { s with englandAreaType := some t,
                 england := some (load_cases_dataset "England" (o.ewRaw t)) }
      else s
    let c2 := s1.wales.isNone || s1.walesTests.isNone || force
    let s2 := if c2 then
        { s1 with wales := some (load_cases_dataset "Wales" (o.ewRaw t)) }
      else s1
    let c3 := s2.scotland.isNone || force
    let s3 := if c3 then
        { s2 with scotland := some (load_scotland_cases_dataset o.scotRaw) }
      else s2
    .ok (s3, (if c1 then [Fetch.england t] else []) ++
        (if c2 then [Fetch.wales t] else []) ++
        (if c3 then [Fetch.scotland] else []))

/-- The cache states reachable from process start through constructor runs
against a fixed oracle. -/
inductive Reachable (o : Oracle) : CacheState → Prop
  | start : Reachable o initialCache
  | step {s s' : CacheState} {force : Bool} {t : String} {log : List Fetch} :
      Reachable o s → init_UKCovid19Data o s force t = .ok (s', log) →
      Reachable o s'

/-! ### List lemmas: lookup over zipped column/cell lists -/

theorem lookup_zip_of_not_mem {β : Type _} {d : Date} :
    ∀ (as : List Date) (bs : List β), d ∉ as → (as.zip bs).lookup d = none := by
  intro as
  induction as with
  | nil => intro bs _; rfl
  | cons a as ih =>
    intro bs hd
    cases bs with
    | nil => rfl
    | cons b bs =>
      simp only [List.zip_cons_cons, List.lookup_cons]
      have hda : d ≠ a := by intro h; exact hd (h ▸ List.mem_cons_self a as)
      simp only [beq_eq_false_iff_ne.mpr hda]
      exact ih bs fun h => hd (List.mem_cons_of_mem a h)

theorem lookup_zip_map_self {β : Type _} {d : Date} (g : Date → β) :
    ∀ (as : List Date), d ∈ as → (as.zip (as.map g)).lookup d = some (g d) := by
  intro as
  induction as with
  | nil => intro h; cases h
  | cons a as ih =>
    intro hd
    simp only [List.map_cons, List.zip_cons_cons, List.lookup_cons]
    by_cases hda : d = a
    · subst hda; simp
    · simp only [beq_eq_false_iff_ne.mpr hda]
      exact ih ((List.mem_cons.mp hd).resolve_left hda)

theorem lookup_zip_map_values {β γ : Type _} {d : Date} (f : β → γ) :
    ∀ (as : List Date) (bs : List β),
      (as.zip (bs.map f)).lookup d = ((as.zip bs).lookup d).map f := by
  intro as
  induction as with
  | nil => intro bs; rfl
  | cons a as ih =>
    intro bs
    cases bs with
    | nil => rfl
    | cons b bs =>
      simp only [List.map_cons, List.zip_cons_cons, List.lookup_cons]
      by_cases hda : d = a
      · subst hda; simp
      · simp only [beq_eq_false_iff_ne.mpr hda]
        exact ih bs

theorem lookup_zip_mem {β : Type _} {d : Date} :
    ∀ (as : List Date) (bs : List β), d ∈ as → as.length ≤ bs.length →
      ∃ b ∈ bs, (as.zip bs).lookup d = some b := by
  intro as
  induction as with
  | nil => intro bs h; cases h
  | cons a as ih =>
    intro bs hd hlen
    cases bs with
    | nil => simp at hlen
    | cons b bs =>
      simp only [List.zip_cons_cons, List.lookup_cons]
      by_cases hda : d = a
      · subst hda
        exact ⟨b, List.mem_cons_self b bs, by simp⟩
      · simp only [beq_eq_false_iff_ne.mpr hda]
        obtain ⟨b', hb', hl⟩ := ih bs ((List.mem_cons.mp hd).resolve_left hda)
          (by simpa using Nat.le_of_succ_le_succ hlen)
        exact ⟨b', List.mem_cons_of_mem b hb', hl⟩

theorem lookup_append_left {β : Type _} {d : Date} {l₁ l₂ : List (Date × β)}
    {b : β} (h : l₁.lookup d = some b) : (l₁ ++ l₂).lookup d = some b := by
  induction l₁ with
  | nil => exact Option.noConfusion h
  | cons p l₁ ih =>
    obtain ⟨a, v⟩ := p
    simp only [List.cons_append, List.lookup_cons] at h ⊢
    by_cases hda : d = a
    · simpa [hda] using h
    · simp only [beq_eq_false_iff_ne.mpr hda] at h ⊢
      exact ih h

theorem lookup_append_right {β : Type _} {d : Date} {l₁ l₂ : List (Date × β)}
    (h : l₁.lookup d = none) : (l₁ ++ l₂).lookup d = l₂.lookup d := by
  induction l₁ with
  | nil => rfl
  | cons p l₁ ih =>
    obtain ⟨a, v⟩ := p
    simp only [List.cons_append, List.lookup_cons] at h ⊢
    by_cases hda : d = a
    · simp [hda] at h
    · simp only [beq_eq_false_iff_ne.mpr hda] at h ⊢
      exact ih h

theorem mem_zip_map {α β : Type _} {f : α → β} {a : α} {b : β} :
    ∀ {l : List α}, (a, b) ∈ l.zip (l.map f) → a ∈ l ∧ b = f a := by
  intro l
  induction l with
  | nil => intro h; cases h
  | cons x l ih =>
    intro h
    simp only [List.map_cons, List.zip_cons_cons, List.mem_cons] at h
    rcases h with h | h
    · obtain ⟨h1, h2⟩ := Prod.mk.injEq .. ▸ h
      exact ⟨by simp [h1], by
        cases h; simp⟩
    · obtain ⟨h1, h2⟩ := ih h
      exact ⟨List.mem_cons_of_mem x h1, h2⟩

/-! ### cellAt lemmas -/

theorem cellAt_of_not_mem {cols : List Date} {cells : List Cell} {d : Date}
    (h : d ∉ cols) : cellAt cols cells d = none := by
  simp [cellAt, lookup_zip_of_not_mem cols cells h]

theorem cellAt_map_self {cols : List Date} {g : Date → Cell} {d : Date}
    (h : d ∈ cols) : cellAt cols (cols.map g) d = g d := by
  simp [cellAt, lookup_zip_map_self g cols h]

theorem cellAt_isSome {cols : List Date} {cells : List Cell} {d : Date}
    (h : d ∈ cols) (hlen : cols.length ≤ cells.length) :
    ∃ b ∈ cells, cellAt cols cells d = b := by
  obtain ⟨b, hb, hl⟩ := lookup_zip_mem cols cells h hlen
  exact ⟨b, hb, by simp [cellAt, hl]⟩

theorem cellAt_map_fill {cols : List Date} {cells : List Cell} {d : Date}
    (h : d ∈ cols) (hlen : cols.length ≤ cells.length) :
    cellAt cols (cells.map fillCell) d = fillCell (cellAt cols cells d) := by
  obtain ⟨b, _, hl⟩ := lookup_zip_mem cols cells h hlen
  simp [cellAt, lookup_zip_map_values fillCell cols cells, hl]

theorem cellAt_append_left {cols cols' : List Date} {cells cells' : List Cell}
    {d : Date} (h : d ∈ cols) (hlen : cols.length = cells.length) :
    cellAt (cols ++ cols') (cells ++ cells') d = cellAt cols cells d := by
  obtain ⟨b, _, hl⟩ := lookup_zip_mem cols cells h (le_of_eq hlen)
  simp only [cellAt, List.zip_append hlen]
  rw [lookup_append_left hl, hl]

theorem cellAt_append_right {cols cols' : List Date} {cells cells' : List Cell}
    {d : Date} (h : d ∉ cols) (hlen : cols.length = cells.length) :
    cellAt (cols ++ cols') (cells ++ cells') d = cellAt cols' cells' d := by
  simp only [cellAt, List.zip_append hlen]
  rw [lookup_append_right (lookup_zip_of_not_mem cols cells h)]

/-! ### Minimum / maximum of a date index -/

theorem foldl_min_le_init (l : List Nat) (a : Nat) : l.foldl min a ≤ a := by
  induction l generalizing a with
  | nil => exact le_refl a
  | cons x l ih => exact le_trans (ih (min a x)) (min_le_left a x)

theorem foldl_min_le_mem {y : Nat} : ∀ {l : List Nat} (a : Nat), y ∈ l → l.foldl min a ≤ y := by
  intro l
  induction l with
  | nil => intro a h; cases h
  | cons x l ih =>
    intro a h
    rcases List.mem_cons.mp h with h | h
    · subst h
      exact le_trans (foldl_min_le_init l (min a y)) (min_le_right a y)
    · exact ih (min a x) h

theorem foldl_min_choice : ∀ (l : List Nat) (a : Nat), l.foldl min a = a ∨ l.foldl min a ∈ l := by
  intro l
  induction l with
  | nil => intro a; exact Or.inl rfl
  | cons x l ih =>
    intro a
    rcases ih (min a x) with h | h
    · rcases Nat.le_total a x with hax | hax
      · exact Or.inl (by rw [List.foldl_cons, h, min_eq_left hax])
      · exact Or.inr (by rw [List.foldl_cons, h, min_eq_right hax]; exact List.mem_cons_self x l)
    · exact Or.inr (List.mem_cons_of_mem x h)

theorem minD_le_of_mem {l : List Nat} {y : Nat} (h : y ∈ l) : minD l ≤ y := by
  cases l with
  | nil => cases h
  | cons d ds =>
    rcases List.mem_cons.mp h with h | h
    · subst h; exact foldl_min_le_init ds y
    · exact foldl_min_le_mem d h

theorem minD_mem {l : List Nat} (h : l ≠ []) : minD l ∈ l := by
  cases l with
  | nil => exact absurd rfl h
  | cons d ds =>
    rcases foldl_min_choice ds d with h' | h'
    · rw [minD, h']; exact List.mem_cons_self d ds
    · exact List.mem_cons_of_mem d h'

theorem le_foldl_max (l : List Nat) (a : Nat) : a ≤ l.foldl max a := by
  induction l generalizing a with
  | nil => exact le_refl a
  | cons x l ih => exact le_trans (le_max_left a x) (ih (max a x))

theorem mem_le_foldl_max {y : Nat} : ∀ {l : List Nat} (a : Nat), y ∈ l → y ≤ l.foldl max a := by
  intro l
  induction l with
  | nil => intro a h; cases h
  | cons x l ih =>
    intro a h
    rcases List.mem_cons.mp h with h | h
    · subst h
      exact le_trans (le_max_right a y) (le_foldl_max l (max a y))
    · exact ih (max a x) h

theorem foldl_max_choice : ∀ (l : List Nat) (a : Nat), l.foldl max a = a ∨ l.foldl max a ∈ l := by
  intro l
  induction l with
  | nil => intro a; exact Or.inl rfl
  | cons x l ih =>
    intro a
    rcases ih (max a x) with h | h
    · rcases Nat.le_total a x with hax | hax
      · exact Or.inr (by rw [List.foldl_cons, h, max_eq_right hax]; exact List.mem_cons_self x l)
      · exact Or.inl (by rw [List.foldl_cons, h, max_eq_left hax])
    · exact Or.inr (List.mem_cons_of_mem x h)

theorem le_maxD_of_mem {l : List Nat} {y : Nat} (h : y ∈ l) : y ≤ maxD l := by
  cases l with
  | nil => cases h
  | cons d ds =>
    rcases List.mem_cons.mp h with h | h
    · subst h; exact le_foldl_max ds y
    · exact mem_le_foldl_max d h

theorem maxD_mem {l : List Nat} (h : l ≠ []) : maxD l ∈ l := by
  cases l with
  | nil => exact absurd rfl h
  | cons d ds =>
    rcases foldl_max_choice ds d with h' | h'
    · rw [maxD, h']; exact List.mem_cons_self d ds
    · exact List.mem_cons_of_mem d h'

theorem minD_le_maxD (l : List Nat) : minD l ≤ maxD l := by
  cases l with
  | nil => exact le_refl 0
  | cons d ds => exact le_maxD_of_mem (minD_mem (List.cons_ne_nil d ds))

theorem minD_perm {l l' : List Nat} (h : l.Perm l') : minD l = minD l' := by
  rcases eq_or_ne l [] with hl | hl
  · subst hl
    rw [h.symm.eq_nil]
  · have hl' : l' ≠ [] := fun h0 => hl ((h0 ▸ h).eq_nil)
    exact le_antisymm (minD_le_of_mem (h.mem_iff.mpr (minD_mem hl')))
      (minD_le_of_mem (h.mem_iff.mp (minD_mem hl)))

theorem maxD_perm {l l' : List Nat} (h : l.Perm l') : maxD l = maxD l' := by
  rcases eq_or_ne l [] with hl | hl
  · subst hl
    rw [h.symm.eq_nil]
  · have hl' : l' ≠ [] := fun h0 => hl ((h0 ▸ h).eq_nil)
    exact le_antisymm (le_maxD_of_mem (h.mem_iff.mp (maxD_mem hl)))
      (le_maxD_of_mem (h.mem_iff.mpr (maxD_mem hl')))

theorem minD_append_eq {cols ms : List Nat} (hc : cols ≠ [])
    (hms : ∀ m ∈ ms, minD cols ≤ m) : minD (cols ++ ms) = minD cols := by
  apply le_antisymm
  · exact minD_le_of_mem (List.mem_append_left ms (minD_mem hc))
  · have hne : cols ++ ms ≠ [] := fun h0 => hc (List.append_eq_nil.mp h0).1
    rcases List.mem_append.mp (minD_mem hne) with h | h
    · exact minD_le_of_mem h
    · exact hms _ h

theorem maxD_append_eq {cols ms : List Nat} (hc : cols ≠ [])
    (hms : ∀ m ∈ ms, m ≤ maxD cols) : maxD (cols ++ ms) = maxD cols := by
  apply le_antisymm
  · have hne : cols ++ ms ≠ [] := fun h0 => hc (List.append_eq_nil.mp h0).1
    rcases List.mem_append.mp (maxD_mem hne) with h | h
    · exact le_maxD_of_mem h
    · exact hms _ h
  · exact le_maxD_of_mem (List.mem_append_left ms (maxD_mem hc))

theorem mem_allDays {lo hi d : Nat} (h : lo ≤ hi) :
    d ∈ allDays lo hi ↔ lo ≤ d ∧ d ≤ hi := by
  rw [allDays, List.mem_range'_1]
  omega

/-! ### Structural lemmas about the backfill normalizer -/

theorem backfill_cols (df : DFrame) :
    (backfill_missing_data df).cols =
      List.insertionSort (fun a b => a ≤ b) (df.cols ++ missingDays df) := rfl

theorem backfill_rows (df : DFrame) :
    (backfill_missing_data df).rows = df.rows.map fun r =>
      (r.1, (backfill_missing_data df).cols.map fun d =>
        cellAt (df.cols ++ missingDays df)
          (r.2.map fillCell ++ (missingDays df).map fun _ => some 0) d) := rfl

theorem sorted_backfill_cols (df : DFrame) :
    List.Sorted (fun a b : Nat => a ≤ b) (backfill_missing_data df).cols :=
  List.sorted_insertionSort _ _

theorem perm_backfill_cols (df : DFrame) :
    (backfill_missing_data df).cols.Perm (df.cols ++ missingDays df) :=
  List.perm_insertionSort _ _

theorem mem_missingDays {df : DFrame} {d : Date} :
    d ∈ missingDays df ↔
      d ∈ allDays (minD df.cols) (maxD df.cols) ∧ d ∉ df.cols := by
  simp [missingDays]

theorem mem_backfill_cols {df : DFrame} {d : Date} :
    d ∈ (backfill_missing_data df).cols ↔
      d ∈ df.cols ∨ d ∈ allDays (minD df.cols) (maxD df.cols) := by
  rw [(perm_backfill_cols df).mem_iff, List.mem_append, mem_missingDays]
  constructor
  · rintro (h | ⟨h, _⟩)
    · exact Or.inl h
    · exact Or.inr h
  · intro h
    rcases h with h | h
    · exact Or.inl h
    · by_cases hc : d ∈ df.cols
      · exact Or.inl hc
      · exact Or.inr ⟨h, hc⟩

theorem minD_cols2 (cols : List Nat) :
    minD (cols ++ (allDays (minD cols) (maxD cols)).filter fun d => d ∉ cols) =
      minD cols := by
  rcases eq_or_ne cols [] with hc | hc
  · subst hc; decide
  · apply minD_append_eq hc
    intro m hm
    have := (List.mem_filter.mp hm).1
    exact ((mem_allDays (minD_le_maxD cols)).mp this).1

theorem maxD_cols2 (cols : List Nat) :
    maxD (cols ++ (allDays (minD cols) (maxD cols)).filter fun d => d ∉ cols) =
      maxD cols := by
  rcases eq_or_ne cols [] with hc | hc
  · subst hc; decide
  · apply maxD_append_eq hc
    intro m hm
    have := (List.mem_filter.mp hm).1
    exact ((mem_allDays (minD_le_maxD cols)).mp this).2

theorem minD_backfill (df : DFrame) :
    minD (backfill_missing_data df).cols = minD df.cols := by
  rw [minD_perm (perm_backfill_cols df)]
  simpa [missingDays] using minD_cols2 df.cols

theorem maxD_backfill (df : DFrame) :
    maxD (backfill_missing_data df).cols = maxD df.cols := by
  rw [maxD_perm (perm_backfill_cols df)]
  simpa [missingDays] using maxD_cols2 df.cols

theorem backfill_complete (df : DFrame) :
    dateComplete (backfill_missing_data df) := by
  intro d h1 h2
  rw [minD_backfill] at h1
  rw [maxD_backfill] at h2
  rw [mem_backfill_cols]
  exact Or.inr ((mem_allDays (minD_le_maxD df.cols)).mpr ⟨h1, h2⟩)

theorem backfill_cell_some {df : DFrame} {cells : List Cell}
    (hlen : cells.length = df.cols.length) {d : Date}
    (hd : d ∈ df.cols ++ missingDays df) :
    ∃ q : ℚ, cellAt (df.cols ++ missingDays df)
      (cells.map fillCell ++ (missingDays df).map fun _ => some 0) d = some q := by
  have hlen2 : (df.cols ++ missingDays df).length ≤
      (cells.map fillCell ++ (missingDays df).map fun _ => some (0:ℚ)).length := by
    simp [hlen]
  obtain ⟨b, hb, hl⟩ := lookup_zip_mem _ _ hd hlen2
  rcases List.mem_append.mp hb with hb | hb
  · obtain ⟨c, _, hc⟩ := List.mem_map.mp hb
    refine ⟨c.getD 0, ?_⟩
    simp only [cellAt]
    rw [hl, ← hc]
    rfl
  · obtain ⟨u, _, hc⟩ := List.mem_map.mp hb
    refine ⟨0, ?_⟩
    simp only [cellAt]
    rw [hl, ← hc]
    rfl

theorem missingDays_backfill (df : DFrame) :
    missingDays (backfill_missing_data df) = [] := by
  rw [missingDays, minD_backfill, maxD_backfill, List.filter_eq_nil_iff]
  intro d hd
  simp only [decide_eq_true_eq, not_not]
  exact mem_backfill_cols.mpr (Or.inr hd)

theorem backfill_cols_backfill (df : DFrame) :
    (backfill_missing_data (backfill_missing_data df)).cols =
      (backfill_missing_data df).cols := by
  rw [backfill_cols (backfill_missing_data df), missingDays_backfill,
    List.append_nil]
  exact (sorted_backfill_cols df).insertionSort_eq

/-- Claim C4: the Backfill Normalizer is idempotent — applying
`_backfill_missing_data` to its own output yields the same matrix as applying
it once (for well-formed frames, i.e. one cell per column in every row, as a
pandas DataFrame always has). -/
theorem claim_C4_backfill_idempotent (df : DFrame)
    (hwf : ∀ r ∈ df.rows, r.2.length = df.cols.length) :
    backfill_missing_data (backfill_missing_data df) = backfill_missing_data df := by
  apply DFrame.ext (backfill_cols_backfill df)
  rw [backfill_rows (backfill_missing_data df), backfill_cols_backfill,
    missingDays_backfill]
  simp only [List.append_nil, List.map_nil]
  rw [backfill_rows df, List.map_map]
  apply List.map_congr_left
  intro r hr
  simp only [Function.comp]
  apply congrArg (Prod.mk r.1)
  simp only [List.map_map]
  apply List.map_congr_left
  intro d hd
  rw [cellAt_map_self hd]
  simp only [Function.comp]
  obtain ⟨q, hq⟩ := backfill_cell_some (hwf r hr)
    ((perm_backfill_cols df).mem_iff.mp hd)
  rw [hq]
  simp [fillCell]

theorem backfill_keys (df : DFrame) :
    (backfill_missing_data df).rows.map Prod.fst = df.rows.map Prod.fst := by
  rw [backfill_rows df, List.map_map]
  rfl

theorem backfill_pointwise (df : DFrame)
    (hwf : ∀ r ∈ df.rows, r.2.length = df.cols.length)
    {r r' : RowKey × List Cell}
    (hrr : (r, r') ∈ df.rows.zip (backfill_missing_data df).rows) :
    r'.1 = r.1 ∧
    (∀ d ∈ df.cols, cellAt (backfill_missing_data df).cols r'.2 d =
      fillCell (cellAt df.cols r.2 d)) ∧
    (∀ d ∈ (backfill_missing_data df).cols, d ∉ df.cols →
      cellAt (backfill_missing_data df).cols r'.2 d = some 0) := by
  rw [backfill_rows df] at hrr
  obtain ⟨hr, hr'⟩ := mem_zip_map hrr
  subst hr'
  have hlenf : df.cols.length = (r.2.map fillCell).length := by
    simp [hwf r hr]
  refine ⟨rfl, ?_, ?_⟩
  · intro d hd
    have hdO : d ∈ (backfill_missing_data df).cols :=
      mem_backfill_cols.mpr (Or.inl hd)
    rw [cellAt_map_self hdO, cellAt_append_left hd hlenf,
      cellAt_map_fill hd (le_of_eq (hwf r hr).symm)]
  · intro d hdO hd
    have hd2 : d ∈ df.cols ++ missingDays df :=
      (perm_backfill_cols df).mem_iff.mp hdO
    have hdm : d ∈ missingDays df := (List.mem_append.mp hd2).resolve_left hd
    rw [cellAt_map_self hdO, cellAt_append_right hd hlenf,
      cellAt_map_self hdm]

/-! ### The Scotland cumulative-to-daily loop, characterized -/

theorem deltaFold_length (is : List Nat) (vs : List ℚ) :
    (is.foldr (fun i acc => deltaStep acc i) vs).length = vs.length := by
  induction is with
  | nil => rfl
  | cons i is ih =>
    rw [List.foldr_cons]
    simp only [deltaStep, List.length_set] at ih ⊢
    exact ih

theorem deltaFold_spec (m : Nat) : ∀ (s : Nat) (vs : List ℚ), 1 ≤ s →
    s + m ≤ vs.length → ∀ j,
      ((List.range' s m).foldr (fun i acc => deltaStep acc i) vs).getD j 0 =
        if s ≤ j ∧ j < s + m then vs.getD j 0 - vs.getD (j-1) 0
        else vs.getD j 0 := by
  induction m with
  | zero =>
    intro s vs _ _ j
    rw [if_neg (by omega)]
    rfl
  | succ m ih =>
    intro s vs hs hm j
    rw [List.range'_succ, List.foldr_cons]
    set A := (List.range' (s+1) m).foldr (fun i acc => deltaStep acc i) vs
      with hAdef
    have hA : ∀ j', A.getD j' 0 =
        if s+1 ≤ j' ∧ j' < s+1+m then vs.getD j' 0 - vs.getD (j'-1) 0
        else vs.getD j' 0 := by
      intro j'
      rw [hAdef]
      exact ih (s+1) vs (by omega) (by omega) j'
    have hlenA : A.length = vs.length := by
      rw [hAdef]
      exact deltaFold_length _ _
    simp only [deltaStep]
    have hAs : A.getD s 0 = vs.getD s 0 := by
      rw [hA s, if_neg (by omega)]
    have hAs1 : A.getD (s-1) 0 = vs.getD (s-1) 0 := by
      rw [hA (s-1), if_neg (by omega)]
    by_cases hj : j = s
    · subst hj
      rw [List.getD_eq_getElem?_getD, List.getElem?_set_self (by omega),
        Option.getD_some, hAs, hAs1, if_pos (by omega)]
    · rw [List.getD_eq_getElem?_getD, List.getElem?_set_ne (fun h => hj h.symm),
        ← List.getD_eq_getElem?_getD, hA j]
      have hiff : (s + 1 ≤ j ∧ j < s + 1 + m) ↔ (s ≤ j ∧ j < s + (m + 1)) := by
        omega
      by_cases hc : s + 1 ≤ j ∧ j < s + 1 + m
      · rw [if_pos hc, if_pos (hiff.mp hc)]
      · rw [if_neg hc, if_neg (fun hcc => hc (hiff.mpr hcc))]

/-- What the descending loop computes on one row: every index `j ≥ 2` becomes
the original value at `j` minus the original value at `j-1` (originals,
because the loop runs from the top index downward), and indices 0 and 1 are
left untouched. -/
theorem deltaLoop_spec (vs : List ℚ) (h2 : 2 ≤ vs.length) :
    (deltaLoop vs).length = vs.length ∧
    ∀ j, (deltaLoop vs).getD j 0 =
      if 2 ≤ j ∧ j < vs.length then vs.getD j 0 - vs.getD (j-1) 0
      else vs.getD j 0 := by
  rw [deltaLoop, List.foldl_reverse]
  refine ⟨deltaFold_length _ _, ?_⟩
  intro j
  have h := deltaFold_spec (vs.length - 2) 2 vs (by omega) (by omega) j
  have heq : 2 + (vs.length - 2) = vs.length := by omega
  rw [heq] at h
  exact h

/-! ### First-appearance deduplication -/

theorem mem_uniqueAux [DecidableEq α] {d : α} :
    ∀ (l seen : List α), d ∈ uniqueAux seen l ↔ d ∈ l ∧ d ∉ seen := by
  intro l
  induction l with
  | nil => intro seen; simp [uniqueAux]
  | cons x xs ih =>
    intro seen
    by_cases hx : x ∈ seen
    · rw [uniqueAux, if_pos hx, ih seen]
      constructor
      · rintro ⟨hm, hs⟩
        exact ⟨List.mem_cons_of_mem x hm, hs⟩
      · rintro ⟨hm, hs⟩
        rcases List.mem_cons.mp hm with h | h
        · exact absurd (h ▸ hx) hs
        · exact ⟨h, hs⟩
    · rw [uniqueAux, if_neg hx]
      constructor
      · intro hm
        rcases List.mem_cons.mp hm with h | h
        · exact ⟨h ▸ List.mem_cons_self x xs, h ▸ hx⟩
        · obtain ⟨h1, h2⟩ := (ih (x :: seen)).mp h
          exact ⟨List.mem_cons_of_mem x h1,
            fun hs => h2 (List.mem_cons_of_mem x hs)⟩
      · rintro ⟨hm, hs⟩
        rcases List.mem_cons.mp hm with h | h
        · exact h ▸ List.mem_cons_self x _
        · by_cases hdx : d = x
          · exact hdx ▸ List.mem_cons_self x _
          · refine List.mem_cons_of_mem x ((ih (x :: seen)).mpr ⟨h, ?_⟩)
            intro hmem
            rcases List.mem_cons.mp hmem with h' | h'
            · exact hdx h'
            · exact hs h'

theorem mem_uniqueList [DecidableEq α] {d : α} {l : List α} :
    d ∈ uniqueList l ↔ d ∈ l := by
  rw [uniqueList, mem_uniqueAux]
  simp

/-! ### Cache-state helper lemmas -/

@[simp]
theorem england_ite (p : Prop) [Decidable p] (x y : CacheState) :
    (if p then x else y).england = if p then x.england else y.england := by
  split <;> rfl

@[simp]
theorem wales_ite (p : Prop) [Decidable p] (x y : CacheState) :
    (if p then x else y).wales = if p then x.wales else y.wales := by
  split <;> rfl

@[simp]
theorem walesTests_ite (p : Prop) [Decidable p] (x y : CacheState) :
    (if p then x else y).walesTests =
      if p then x.walesTests else y.walesTests := by
  split <;> rfl

@[simp]
theorem scotland_ite (p : Prop) [Decidable p] (x y : CacheState) :
    (if p then x else y).scotland = if p then x.scotland else y.scotland := by
  split <;> rfl

@[simp]
theorem areaType_ite (p : Prop) [Decidable p] (x y : CacheState) :
    (if p then x else y).englandAreaType =
      if p then x.englandAreaType else y.englandAreaType := by
  split <;> rfl

/-- The attribute invariant maintained by every construction: whenever
`england_cases_data` is populated, `england_area_type` has been assigned, and
it holds exactly the area type the cached England dataset was loaded with. -/
def englandInv (o : Oracle) (s : CacheState) : Prop :=
  ∀ m, s.england = some m →
    ∃ t0, s.englandAreaType = some t0 ∧
      m = load_cases_dataset "England" (o.ewRaw t0)

theorem evalEnglandCond_ok {o : Oracle} {s : CacheState}
    (h : englandInv o s) (force : Bool) (t : String) :
    ∃ c, evalEnglandCond s force t = .ok c := by
  rcases hE : s.england with _ | m
  · exact ⟨true, by simp [evalEnglandCond, hE]⟩
  · obtain ⟨t0, ht0, -⟩ := h m hE
    cases force with
    | false => exact ⟨decide (t0 ≠ t), by simp [evalEnglandCond, hE, ht0]⟩
    | true => exact ⟨true, by simp [evalEnglandCond, hE]⟩

theorem init_ok_of_inv {o : Oracle} {s : CacheState} (h : englandInv o s)
    (force : Bool) (t : String) :
    ∃ s' log, init_UKCovid19Data o s force t = .ok (s', log) := by
  obtain ⟨c, hc⟩ := evalEnglandCond_ok h force t
  unfold init_UKCovid19Data
  simp only [hc]
  exact ⟨_, _, rfl⟩

theorem init_state {o : Oracle} {s : CacheState} {force : Bool} {t : String}
    {s' : CacheState} {log : List Fetch} {c : Bool}
    (hc : evalEnglandCond s force t = .ok c)
    (hrun : init_UKCovid19Data o s force t = .ok (s', log)) :
    s'.england =
      (if c then some (load_cases_dataset "England" (o.ewRaw t))
       else s.england) ∧
    s'.englandAreaType = (if c then some t else s.englandAreaType) := by
  unfold init_UKCovid19Data at hrun
  rw [hc] at hrun
  simp only [Except.ok.injEq, Prod.mk.injEq] at hrun
  obtain ⟨h1, -⟩ := hrun
  subst h1
  constructor <;> simp

theorem init_preserves_inv {o : Oracle} {s s' : CacheState} {force : Bool}
    {t : String} {log : List Fetch} (h : englandInv o s)
    (hrun : init_UKCovid19Data o s force t = .ok (s', log)) :
    englandInv o s' := by
  obtain ⟨c, hc⟩ := evalEnglandCond_ok h force t
  obtain ⟨hE, hT⟩ := init_state hc hrun
  intro m hm
  cases c with
  | true =>
    rw [hE] at hm
    simp at hm
    rw [hT]
    exact ⟨t, by simp, hm.symm⟩
  | false =>
    rw [hE] at hm
    simp at hm
    obtain ⟨t0, ht0, hm0⟩ := h m hm
    rw [hT]
    exact ⟨t0, by simpa using ht0, hm0⟩

theorem reachable_inv {o : Oracle} {s : CacheState} (h : Reachable o s) :
    englandInv o s := by
  induction h with
  | start =>
    intro m hm
    exact absurd hm (by simp [initialCache])
  | step hprev hrun ih => exact init_preserves_inv ih hrun

/-! ### The claims -/

/-- An oracle serving empty tables; used to instantiate the cache claims. -/
def trivialOracle : Oracle := ⟨fun _ => [], ⟨[], []⟩⟩

/-- A tiny populated frame for the cache claims. -/
def popFrame : DFrame := ⟨[0], [(("England", "A"), [some 1])]⟩

/-- A fully populated cache state (note `walesTests` is `none`: no code path
ever assigns `wales_tests_data`, so this holds in every reachable state). -/
def popState : CacheState :=
  ⟨some popFrame, some popFrame, none, some popFrame, some "utla"⟩

/-- Claim C1 (refuted; the code contradicts its own docstring, which promises
that further instances reuse the same data): on every populated cache state,
re-constructing with `force_load=false` and the cached area type still issues
a Wales fetch and overwrites the cached Wales matrix, because the condition on
line 106 tests `wales_tests_data is None` and no code ever assigns that
attribute.  England and Scotland are reused unchanged. -/
theorem claim_C1_wales_refetch (o : Oracle) (s : CacheState) (E W S : DFrame)
    (t : String) (hE : s.england = some E) (hW : s.wales = some W)
    (hS : s.scotland = some S) (hWT : s.walesTests = none)
    (hT : s.englandAreaType = some t) :
    init_UKCovid19Data o s false t =
      .ok ({ s with wales := some (load_cases_dataset "Wales" (o.ewRaw t)) },
        [Fetch.wales t]) := by
  have hc : evalEnglandCond s false t = .ok false := by
    simp [evalEnglandCond, hE, hT]
  unfold init_UKCovid19Data
  rw [hc]
  simp [hW, hS, hWT]

/-- Witness for claim C1 at a concrete populated state. -/
theorem claim_C1_wales_refetch_witness :
    init_UKCovid19Data trivialOracle popState false "utla" =
      .ok ({ popState with
             wales := some (load_cases_dataset "Wales" (trivialOracle.ewRaw "utla")) },
        [Fetch.wales "utla"]) :=
  claim_C1_wales_refetch trivialOracle popState popFrame popFrame popFrame
    "utla" rfl rfl rfl rfl rfl

/-- Claim C2 (counterexample): the Scotland reshaper does not pass its result
through the Backfill Normalizer, so a raw Scotland table whose dates have a
gap produces a matrix that is not date-complete. -/
theorem claim_C2_counterexample :
    ¬ dateComplete (load_scotland_cases_dataset ⟨[0, 2], [("A", [some 1, some 2])]⟩) := by
  intro h
  have h1 := h 1 (by decide) (by decide)
  simp [load_scotland_cases_dataset] at h1

/-- Claim C2 as amended: every matrix produced by the England/Wales reshaper
is date-complete (its final step is the Backfill Normalizer, whose output is
always date-complete), but the Scotland reshaper keeps exactly the raw input
dates as its columns — it is date-complete only when they are contiguous. -/
theorem claim_C2_amended :
    (∀ (country : String) (raw : List EWRow),
      dateComplete (load_cases_dataset country raw)) ∧
    (∀ df : DFrame, dateComplete (backfill_missing_data df)) ∧
    ∀ raw : ScotRaw, (load_scotland_cases_dataset raw).cols = raw.dates := by
  exact ⟨fun country raw => backfill_complete _, backfill_complete, fun raw => rfl⟩

/-- Claim C3 (the code diverges from the claimed delta rule): on cumulative
row `[10, 15, 15, 20]` the loop produces `[10, 15, 0, 5]` — column 1 keeps the
raw cumulative value 15 because `range(n-1, 1, -1)` stops at index 2 — whereas
the claim demands `[10, 5, 0, 5]`. -/
theorem claim_C3_scotland_delta_eval :
    load_scotland_cases_dataset
        ⟨[1, 2, 3, 4], [("A", [some 10, some 15, some 15, some 20])]⟩ =
      ⟨[1, 2, 3, 4], [(("Scotland", "A"), [some 10, some 15, some 0, some 5])]⟩ ∧
    (⟨[1, 2, 3, 4], [(("Scotland", "A"), [some 10, some 15, some 0, some 5])]⟩ : DFrame) ≠
      ⟨[1, 2, 3, 4], [(("Scotland", "A"), [some 10, some 5, some 0, some 5])]⟩ := by
  constructor
  · norm_num [load_scotland_cases_dataset, deltaLoop, deltaStep, List.range']
  · intro h
    simp only [DFrame.mk.injEq, List.cons.injEq, Prod.mk.injEq, Option.some.injEq,
      and_true, true_and] at h
    norm_num at h

/-- Witness input for claim C4: a frame with an unsorted column gap and a NaN. -/
def gapFrame : DFrame := ⟨[2, 0], [(("England", "A"), [none, some 5])]⟩

/-- Witness for claim C4 at a concrete frame. -/
theorem claim_C4_backfill_idempotent_witness :
    backfill_missing_data (backfill_missing_data gapFrame) =
      backfill_missing_data gapFrame :=
  claim_C4_backfill_idempotent gapFrame
    (by intro r hr; rw [List.mem_singleton.mp hr]; rfl)

/-- Claim C5: the combined read has column set the union of the three national
column sets (in pandas concat order), its rows are the aligned rows of the
three nations concatenated in order (England, Wales, Scotland) with keys
preserved, and each aligned cell at a union column is the nation's own cell
with NaN filled by 0.0 — in particular 0.0 wherever the column is absent from
that nation's matrix. -/
theorem claim_C5_get_cases_data (e w s : DFrame) :
    (∀ d, d ∈ (get_cases_data e w s).cols ↔
      d ∈ e.cols ∨ d ∈ w.cols ∨ d ∈ s.cols) ∧
    ((get_cases_data e w s).rows.map Prod.fst =
      e.rows.map Prod.fst ++ w.rows.map Prod.fst ++ s.rows.map Prod.fst) ∧
    ((get_cases_data e w s).rows =
      alignRows (get_cases_data e w s).cols e.cols e.rows ++
      alignRows (get_cases_data e w s).cols w.cols w.rows ++
      alignRows (get_cases_data e w s).cols s.cols s.rows) ∧
    ∀ (ucols fcols : List Date) (rows : List (RowKey × List Cell))
      (r r' : RowKey × List Cell),
      (r, r') ∈ rows.zip (alignRows ucols fcols rows) →
      r'.1 = r.1 ∧
      (∀ d ∈ ucols, cellAt ucols r'.2 d = fillCell (cellAt fcols r.2 d)) ∧
      (∀ d ∈ ucols, d ∉ fcols → cellAt ucols r'.2 d = some 0) := by
  refine ⟨?_, ?_, rfl, ?_⟩
  · intro d
    simp [get_cases_data, mem_uniqueList, List.mem_append, or_assoc]
  · simp [get_cases_data, alignRows, List.map_map, List.map_append]
    rfl
  · intro ucols fcols rows r r' hrr
    obtain ⟨hr, hr'⟩ := mem_zip_map hrr
    subst hr'
    refine ⟨rfl, ?_, ?_⟩
    · intro d hd
      exact cellAt_map_self hd
    · intro d hd hnd
      rw [cellAt_map_self hd, cellAt_of_not_mem hnd]
      rfl

/-- Witness frames for claim C5: England spans day 5 only, Scotland day 6
only, so the union is [5, 6] and England's aligned row is zero at day 6. -/
def eFrame : DFrame := ⟨[5], [(("England", "A"), [some 9])]⟩

def wFrame : DFrame := ⟨[5], []⟩

def sFrame : DFrame := ⟨[6], [(("Scotland", "B"), [some 8])]⟩

/-- Witness for claim C5 at concrete frames. -/
theorem claim_C5_get_cases_data_witness :
    cellAt (get_cases_data eFrame wFrame sFrame).cols [some 9, some 0] 6 =
      some 0 := by
  have h := (claim_C5_get_cases_data eFrame wFrame sFrame).2.2.2
    (get_cases_data eFrame wFrame sFrame).cols eFrame.cols eFrame.rows
    (("England", "A"), [some 9]) (("England", "A"), [some 9, some 0])
    (by simp +decide [alignRows, eFrame, wFrame, sFrame, get_cases_data,
      uniqueList, uniqueAux, cellAt, fillCell, List.lookup])
  exact h.2.2 6 (by decide) (by decide)

/-- Claim C6: with a populated cache (in which `wales_tests_data` is `None`,
as in every reachable state), constructing with `force_load=true` fetches all
three national datasets — for any requested area type, including the cached
one — and constructing with a different `england_area_type` fetches the
England and Wales datasets while the cached Scotland matrix is reused without
a fetch. -/
theorem claim_C6_invalidation (o : Oracle) (s : CacheState) (E W S : DFrame)
    (t : String) (hE : s.england = some E) (hW : s.wales = some W)
    (hS : s.scotland = some S) (hWT : s.walesTests = none)
    (hT : s.englandAreaType = some t) :
    (∀ t' : String, init_UKCovid19Data o s true t' =
      .ok ({ s with englandAreaType := some t',
                    england := some (load_cases_dataset "England" (o.ewRaw t')),
                    wales := some (load_cases_dataset "Wales" (o.ewRaw t')),
                    scotland := some (load_scotland_cases_dataset o.scotRaw) },
        [Fetch.england t', Fetch.wales t', Fetch.scotland])) ∧
    (∀ t' : String, t' ≠ t → init_UKCovid19Data o s false t' =
      .ok ({ s with englandAreaType := some t',
                    england := some (load_cases_dataset "England" (o.ewRaw t')),
                    wales := some (load_cases_dataset "Wales" (o.ewRaw t')) },
        [Fetch.england t', Fetch.wales t'])) := by
  constructor
  · intro t'
    have hc : evalEnglandCond s true t' = .ok true := by
      simp [evalEnglandCond, hE]
    unfold init_UKCovid19Data
    rw [hc]
    simp [hW, hS, hWT]
  · intro t' hne
    have hdec : decide (t ≠ t') = true := decide_eq_true (Ne.symm hne)
    have hc : evalEnglandCond s false t' = .ok true := by
      simp [evalEnglandCond, hE, hT, hdec]
    unfold init_UKCovid19Data
    rw [hc]
    simp [hW, hS, hWT]

/-- Witness for claim C6 at a concrete populated state: a forced reload with
the identical cached parameters ("utla") refetches all three datasets, and a
construction with the different area type "ltla" refetches only England and
Wales while the Scotland field is untouched. -/
theorem claim_C6_invalidation_witness :
    (init_UKCovid19Data trivialOracle popState true "utla" =
      .ok ({ popState with
             englandAreaType := some "utla",
             england := some (load_cases_dataset "England" (trivialOracle.ewRaw "utla")),
             wales := some (load_cases_dataset "Wales" (trivialOracle.ewRaw "utla")),
             scotland := some (load_scotland_cases_dataset trivialOracle.scotRaw) },
        [Fetch.england "utla", Fetch.wales "utla", Fetch.scotland])) ∧
    (init_UKCovid19Data trivialOracle popState false "ltla" =
      .ok ({ popState with
             englandAreaType := some "ltla",
             england := some (load_cases_dataset "England" (trivialOracle.ewRaw "ltla")),
             wales := some (load_cases_dataset "Wales" (trivialOracle.ewRaw "ltla")) },
        [Fetch.england "ltla", Fetch.wales "ltla"])) :=
  ⟨(claim_C6_invalidation trivialOracle popState popFrame popFrame popFrame
      "utla" rfl rfl rfl rfl rfl).1 "utla",
   (claim_C6_invalidation trivialOracle popState popFrame popFrame popFrame
      "utla" rfl rfl rfl rfl rfl).2 "ltla" (by decide)⟩

/-- Shared evaluation of the claim C7 scenario: the two raw rows carry two
distinct area names ("Areas A" and "Area A"), so the pivot produces two rows;
after backfill the "Areas A" row is `[5, 0, 0]` and the "Area A" row is
`[0, 0, 7]` over the columns day 1, 2, 3. -/
theorem england_scenario_eval :
    load_cases_dataset "England"
        [⟨"E1", "Areas A", 1, 5⟩, ⟨"E1", "Area A", 3, 7⟩] =
      ⟨[1, 2, 3], [(("England", "Areas A"), [some 5, some 0, some 0]),
                   (("England", "Area A"), [some 0, some 0, some 7])]⟩ := by
  simp +decide [load_cases_dataset, backfill_missing_data, missingDays, allDays,
    minD, maxD, cellAt, fillCell, uniqueList, uniqueAux, pivotCell,
    List.range', List.insertionSort, List.orderedInsert, List.lookup]

/-- Claim C7 (counterexample): the reshaped table does NOT contain the claimed
row `("England", "Area A") ↦ [5, 0, 7]`; the actual row for that key is
`[0, 0, 7]`, because the value 5 belongs to the distinct area "Areas A". -/
theorem claim_C7_counterexample :
    (("England", "Area A"), [some 0, some 0, some 7]) ∈
      (load_cases_dataset "England"
        [⟨"E1", "Areas A", 1, 5⟩, ⟨"E1", "Area A", 3, 7⟩]).rows ∧
    (("England", "Area A"), [some 5, some 0, some 7]) ∉
      (load_cases_dataset "England"
        [⟨"E1", "Areas A", 1, 5⟩, ⟨"E1", "Area A", 3, 7⟩]).rows := by
  rw [england_scenario_eval]
  constructor
  · simp
  · simp +decide

/-- Claim C7 as amended: the scenario yields two rows — `("England",
"Areas A")` with day 1 ↦ 5, day 2 ↦ 0, day 3 ↦ 0, and `("England", "Area A")`
with day 1 ↦ 0, day 2 ↦ 0, day 3 ↦ 7 — over columns day 1, 2, 3. -/
theorem claim_C7_amended :
    load_cases_dataset "England"
        [⟨"E1", "Areas A", 1, 5⟩, ⟨"E1", "Area A", 3, 7⟩] =
      ⟨[1, 2, 3], [(("England", "Areas A"), [some 5, some 0, some 0]),
                   (("England", "Area A"), [some 0, some 0, some 7])]⟩ :=
  england_scenario_eval

/-- Claim C8: because the loop iterates indices descending from the last down
to 2, every output index `i ≥ 2` is the original cumulative value at `i`
minus the original value at `i-1` (never an already-differenced value), and
indices 0 and 1 keep their raw values. -/
theorem claim_C8_delta_loop (vs : List ℚ) (h3 : 3 ≤ vs.length) :
    (deltaLoop vs).length = vs.length ∧
    ∀ i, i < vs.length →
      (deltaLoop vs).getD i 0 =
        if 2 ≤ i then vs.getD i 0 - vs.getD (i - 1) 0 else vs.getD i 0 := by
  obtain ⟨hlen, hspec⟩ := deltaLoop_spec vs (by omega)
  refine ⟨hlen, fun i hi => ?_⟩
  rw [hspec i]
  by_cases h2 : 2 ≤ i
  · rw [if_pos ⟨h2, hi⟩, if_pos h2]
  · rw [if_neg (fun hc => h2 hc.1), if_neg h2]

/-- Witness for claim C8 on the concrete row `[10, 15, 15, 20]`. -/
theorem claim_C8_delta_loop_witness :
    (deltaLoop [10, 15, 15, 20]).getD 3 0 = 5 ∧
    (deltaLoop [10, 15, 15, 20]).getD 1 0 = 15 := by
  have h := claim_C8_delta_loop [10, 15, 15, 20] (by norm_num)
  have h3 := h.2 3 (by norm_num)
  have h1 := h.2 1 (by norm_num)
  norm_num [List.getD] at h3 h1
  exact ⟨h3, h1⟩

/-- Claim C9: the Backfill Normalizer never alters reported data — row keys
are unchanged, every already-present (non-NaN) cell keeps its value at its
date, each date of the input is filled from the input cell (NaN becoming 0.0),
every inserted column holds 0.0 in all rows, and the output columns are the
input columns plus the full calendar range, reordered ascending. -/
theorem claim_C9_backfill_frame (df : DFrame)
    (hwf : ∀ r ∈ df.rows, r.2.length = df.cols.length) :
    ((backfill_missing_data df).rows.map Prod.fst = df.rows.map Prod.fst) ∧
    List.Sorted (fun a b : Nat => a ≤ b) (backfill_missing_data df).cols ∧
    (∀ d, d ∈ (backfill_missing_data df).cols ↔
      d ∈ df.cols ∨ d ∈ allDays (minD df.cols) (maxD df.cols)) ∧
    ∀ r r', (r, r') ∈ df.rows.zip (backfill_missing_data df).rows →
      r'.1 = r.1 ∧
      (∀ d x, d ∈ df.cols → cellAt df.cols r.2 d = some x →
        cellAt (backfill_missing_data df).cols r'.2 d = some x) ∧
      (∀ d ∈ df.cols, cellAt (backfill_missing_data df).cols r'.2 d =
        fillCell (cellAt df.cols r.2 d)) ∧
      (∀ d ∈ (backfill_missing_data df).cols, d ∉ df.cols →
        cellAt (backfill_missing_data df).cols r'.2 d = some 0) := by
  refine ⟨backfill_keys df, sorted_backfill_cols df, fun d => mem_backfill_cols, ?_⟩
  intro r r' hrr
  obtain ⟨h1, h2, h3⟩ := backfill_pointwise df hwf hrr
  refine ⟨h1, ?_, h2, h3⟩
  intro d x hd hx
  rw [h2 d hd, hx]
  rfl

/-- Witness input for claim C9. -/
def c9Frame : DFrame := ⟨[1, 3], [(("England", "B"), [some 4, none])]⟩

/-- Witness for claim C9 at a concrete frame: day 1 keeps its reported value 4
in the backfilled row. -/
theorem claim_C9_backfill_frame_witness :
    cellAt (backfill_missing_data c9Frame).cols [some 4, some 0, some 0] 1 =
      some 4 := by
  have h := (claim_C9_backfill_frame c9Frame
      (by intro r hr; rw [List.mem_singleton.mp hr]; rfl)).2.2.2
    (("England", "B"), [some 4, none])
    (("England", "B"), [some 4, some 0, some 0])
    (by simp +decide [backfill_missing_data, missingDays, allDays, minD, maxD,
      cellAt, fillCell, c9Frame, List.range', List.insertionSort,
      List.orderedInsert, List.lookup])
  exact h.2.1 1 4 (by decide) (by simp +decide [cellAt, c9Frame, List.lookup])

/-- Claim C10: on every reachable cache state the constructor never raises an
attribute error (the `england_area_type` comparison is only evaluated when the
attribute has been assigned), and whenever the England dataset is cached the
cached area type is exactly the one it was loaded with. -/
theorem claim_C10_attribute_safety (o : Oracle) (s : CacheState)
    (h : Reachable o s) :
    (∀ (force : Bool) (t : String), ∃ s' log,
      init_UKCovid19Data o s force t = .ok (s', log)) ∧
    ∀ m, s.england = some m → ∃ t0, s.englandAreaType = some t0 ∧
      m = load_cases_dataset "England" (o.ewRaw t0) := by
  have hinv := reachable_inv h
  exact ⟨fun force t => init_ok_of_inv hinv force t, hinv⟩

/-- Witness for claim C10: the first-ever construction (from the initial,
attribute-less state) succeeds without an attribute error. -/
theorem claim_C10_attribute_safety_witness :
    ∃ s' log, init_UKCovid19Data trivialOracle initialCache false "utla" =
      .ok (s', log) :=
  (claim_C10_attribute_safety trivialOracle initialCache Reachable.start).1
    false "utla"

end UKAreaStats
